import Mathlib

/-!
Verification development for the byte-range / sequential-segment HTTP
retrieval engine implemented in `pytube/request.py`.

The Python source is shallowly embedded: byte strings become `List Nat`,
URLs become `List Char`, the network is an explicit collaborator function
(one `Response` per ranged request), and the unbounded `while` loops of
the source become fuel-indexed recursions returning `Option`/`Except`
(`none` meaning the fuel ran out, i.e. the loop had not terminated yet).
-/

namespace PytubeRequest

/-- A byte string (each entry is one byte). -/
abbrev Bytes := List Nat

/-- Constant `default_chunk_size = 4096` from `request.py`. -/
def default_chunk_size : Nat := 4096

/-- Constant `default_range_size = 9437184` from `request.py`. -/
def default_range_size : Nat := 9437184

/-- Model of one HTTP response to a ranged GET, as consumed by `stream`:
the parse result of the total recorded in the `Content-Range` header
(`none` when the header is absent or malformed, in which case the
`except` branch of the source logs and continues), and the body bytes. -/
structure Response where
  contentRangeTotal : Option Nat
  body : Bytes
deriving DecidableEq, Repr

/-- Sum of the lengths of a list of chunks. -/
def sumLens (l : List Bytes) : Nat := (l.map List.length).sum

/-- Fuel-indexed helper for `readChunks`; the fuel is the body length,
which bounds the number of `read` calls that return data. -/
def readChunksAux (chunk_size : Nat) : Nat → Bytes → List Bytes
  | 0, _ => []
  | fuel + 1, body =>
    if chunk_size = 0 then []
    else
      match body with
      | [] => []
      | b :: rest =>
          (b :: rest).take chunk_size ::
            readChunksAux chunk_size fuel ((b :: rest).drop chunk_size)

/-- The inner `while True: chunk = response.read(chunk_size)` loop of
`stream`: the list of successive non-empty reads of at most
`chunk_size` bytes, stopping at the first empty read.  `read(0)`
returns no bytes, so a zero `chunk_size` reads nothing. -/
def readChunks (chunk_size : Nat) (body : Bytes) : List Bytes :=
  readChunksAux chunk_size body.length body

theorem readChunksAux_join (cs : Nat) (hcs : 0 < cs) :
    ∀ fuel body, List.length body ≤ fuel →
      (readChunksAux cs fuel body).flatten = body := by
  intro fuel
  induction fuel with
  | zero =>
      intro body hb
      have : body = [] := List.eq_nil_of_length_eq_zero (Nat.le_zero.mp hb)
      simp [this, readChunksAux]
  | succ n ih =>
      intro body hb
      match body with
      | [] => simp [readChunksAux]
      | b :: rest =>
          have hcs' : ¬ cs = 0 := Nat.pos_iff_ne_zero.mp hcs
          have hlen : ((b :: rest).drop cs).length ≤ n := by
            simp only [List.length_drop]
            have := List.length_cons b rest ▸ hb
            omega
          simp only [readChunksAux, hcs', if_false, List.flatten]
          rw [ih _ hlen]
          exact List.take_append_drop cs (b :: rest)

theorem readChunks_join (cs : Nat) (hcs : 0 < cs) (body : Bytes) :
    (readChunks cs body).flatten = body :=
  readChunksAux_join cs hcs body.length body (Nat.le_refl _)

theorem sumLens_eq_length_flatten (l : List Bytes) : sumLens l = l.flatten.length := by
  simp [sumLens, List.length_flatten]

theorem sumLens_readChunks (cs : Nat) (hcs : 0 < cs) (body : Bytes) :
    sumLens (readChunks cs body) = body.length := by
  rw [sumLens_eq_length_flatten, readChunks_join cs hcs]

theorem sumLens_append (a b : List Bytes) :
    sumLens (a ++ b) = sumLens a + sumLens b := by
  simp [sumLens]

/-- One record per iteration of the outer `while downloaded < file_size`
loop of `stream`: the two bounds of the issued `Range: bytes=start-stop`
header, the value of `file_size` before and after the `Content-Range`
inspection, and the number of body bytes read in this iteration. -/
structure IterLog where
  start : Nat
  stop : Nat
  fsBefore : Nat
  fsAfter : Nat
  bytes : Nat
deriving DecidableEq, Repr

/-- The outer loop of `stream` (request.py lines 156-174), fuel-indexed.
State: `downloaded` and `file_size`.  Each iteration issues the ranged
request `[downloaded, min(downloaded + range_size, file_size) - 1]`,
replaces `file_size` by the Content-Range total when the current
`file_size` still equals `range_size` and the parse succeeds, then reads
the body in `chunk_size` pieces.  Returns the yielded chunks and the
iteration log, or `none` when the fuel is exhausted before the loop
condition fails. -/
def streamLoop (server : Nat → Nat → Response) (chunk_size range_size : Nat) :
    Nat → Nat → Nat → Option (List Bytes × List IterLog)
  | 0, _, _ => none
  | fuel + 1, downloaded, file_size =>
    if downloaded < file_size then
      let stop_pos := min (downloaded + range_size) file_size - 1
      let response := server downloaded stop_pos
      let new_file_size :=
        if file_size = range_size then
          match response.contentRangeTotal with
          | some total => total
          | none => file_size
        else file_size
      let chunks := readChunks chunk_size response.body
      let got := sumLens chunks
      match streamLoop server chunk_size range_size fuel (downloaded + got) new_file_size with
      | none => none
      | some (restChunks, restLogs) =>
          some (chunks ++ restChunks,
            ⟨downloaded, stop_pos, file_size, new_file_size, got⟩ :: restLogs)
    else some ([], [])

/-- Entry `stream(url, chunk_size, range_size)`: `downloaded = 0` and
`file_size = range_size` ("fake filesize to start"). -/
def stream (server : Nat → Nat → Response) (chunk_size range_size fuel : Nat) :
    Option (List Bytes × List IterLog) :=
  streamLoop server chunk_size range_size fuel 0 range_size

/-- Ceiling division `⌈a / b⌉` on naturals. -/
def ceilDiv (a b : Nat) : Nat := (a + b - 1) / b

/-- The request windows `stream` issues against a server whose true total
is `S`, with window size `W`: the first request is `[0, W-1]` (its stop
is computed from the placeholder `file_size = W`, not from `S`), and
every later request is an aligned window clamped to `S`. -/
def streamReqPlan (S W : Nat) : List (Nat × Nat) :=
  (0, W - 1) ::
    (List.range (ceilDiv S W - 1)).map
      (fun j => ((j + 1) * W, min ((j + 2) * W) S - 1))

theorem streamLoop_done (server : Nat → Nat → Response) (cs W S f : Nat) :
    streamLoop server cs W (f + 1) S S = some ([], []) := by
  simp [streamLoop]

theorem streamLoop_atS (server : Nat → Nat → Response) (cs W S : Nat)
    (hW : 0 < W) (hcs : 0 < cs)
    (hT : ∀ a b, (server a b).contentRangeTotal = some S)
    (hB : ∀ a b, (server a b).body.length = min (b + 1) S - a) :
    ∀ fuel j, 1 ≤ j → j * W < S → S - j * W < fuel →
      ∃ chunks logs,
        streamLoop server cs W fuel (j * W) S = some (chunks, logs)
        ∧ sumLens chunks = S - j * W
        ∧ logs.map (fun l => (l.start, l.stop)) =
            (List.range (ceilDiv S W - j)).map
              (fun i => ((j + i) * W, min ((j + i + 1) * W) S - 1)) := by
  intro fuel
  induction fuel with
  | zero => intro j hj hjS hfuel; omega
  | succ f ih =>
      intro j hj hjS hfuel
      have hSpos : 0 < S := Nat.lt_of_le_of_lt (Nat.zero_le _) hjS
      set M := min (j * W + W) S with hM
      have hMle : M ≤ S := Nat.min_le_right _ _
      have hMgt : j * W < M := Nat.lt_min.mpr ⟨by omega, hjS⟩
      have hstop : M - 1 + 1 = M := by omega
      have hbody : (server (j * W) (M - 1)).body.length = M - j * W := by
        rw [hB]; rw [hstop]; rw [Nat.min_eq_left hMle]
      have hfs :
          (if S = W then
            match (server (j * W) (M - 1)).contentRangeTotal with
            | some total => total
            | none => S
          else S) = S := by
        rw [hT]; split <;> rfl
      have hgot : sumLens (readChunks cs (server (j * W) (M - 1)).body) = M - j * W := by
        rw [sumLens_readChunks cs hcs, hbody]
      have hnext : j * W + (M - j * W) = M := by omega
      have hjC : j + 1 ≤ ceilDiv S W := by
        rw [ceilDiv, Nat.le_div_iff_mul_le hW]
        have : (j + 1) * W = j * W + W := by ring
        omega
      have hjW1 : (j + 1) * W = j * W + W := by ring
      rcases Nat.lt_or_ge ((j + 1) * W) S with hlt | hge
      · -- another full window follows
        have hMW : M = (j + 1) * W := by
          rw [hM, hjW1]
          exact Nat.min_eq_left (by omega)
        have hj1S : (j + 1) * W < S := hlt
        have hfuel' : S - (j + 1) * W < f := by omega
        obtain ⟨chunksR, logsR, hrec, hsumR, hmapR⟩ :=
          ih (j + 1) (by omega) hj1S hfuel'
        rw [← hMW] at hrec
        refine ⟨readChunks cs (server (j * W) (M - 1)).body ++ chunksR,
          ⟨j * W, M - 1, S, S, M - j * W⟩ :: logsR, ?_, ?_, ?_⟩
        · simp only [streamLoop, if_pos hjS]
          rw [← hM, hfs, hgot, hnext, hrec]
        · rw [sumLens_append, hgot, hsumR]
          omega
        · have hCj : ceilDiv S W - j = (ceilDiv S W - (j + 1)) + 1 := by omega
          rw [List.map_cons, hCj, List.range_succ_eq_map, List.map_cons, List.map_map]
          congr 1
          · show (j * W, M - 1) = ((j + 0) * W, min ((j + 0 + 1) * W) S - 1)
            have e0 : j + 0 = j := by omega
            have e1 : j + 0 + 1 = j + 1 := by omega
            rw [e0, e1, Nat.min_eq_left (Nat.le_of_lt hlt), hMW]
          · rw [hmapR]
            apply List.map_congr_left
            intro i _
            show ((j + 1 + i) * W, min ((j + 1 + i + 1) * W) S - 1) =
              ((j + (i + 1)) * W, min ((j + (i + 1) + 1) * W) S - 1)
            have e1 : j + 1 + i = j + (i + 1) := by omega
            rw [e1]
      · -- last window: clamped at S
        have hMS : M = S := by
          rw [hM]
          exact Nat.min_eq_right (by omega)
        have hf1 : 1 ≤ f := by omega
        refine ⟨readChunks cs (server (j * W) (M - 1)).body,
          [⟨j * W, M - 1, S, S, M - j * W⟩], ?_, ?_, ?_⟩
        · simp only [streamLoop, if_pos hjS]
          rw [← hM, hfs, hgot, hnext, hMS]
          obtain ⟨f', rfl⟩ : ∃ f', f = f' + 1 := ⟨f - 1, by omega⟩
          rw [streamLoop_done]
          simp
        · rw [hgot, hMS]
        · have hC2 : ceilDiv S W ≤ j + 1 := by
            rw [ceilDiv]
            have hx : S + W - 1 < (j + 2) * W := by
              have : (j + 2) * W = (j + 1) * W + W := by ring
              omega
            have := (Nat.div_lt_iff_lt_mul hW).mpr hx
            omega
          have hCj : ceilDiv S W - j = 1 := by omega
          have hr1 : List.range 1 = [0] := rfl
          rw [hCj, hr1]
          simp only [List.map_cons, List.map_nil]
          show [(j * W, M - 1)] = [((j + 0) * W, min ((j + 0 + 1) * W) S - 1)]
          have e0 : j + 0 = j := by omega
          have e1 : j + 0 + 1 = j + 1 := by omega
          rw [e0, e1, Nat.min_eq_right hge, hMS]

theorem stream_plan (S W cs fuel : Nat) (server : Nat → Nat → Response)
    (hS : 0 < S) (hW : 0 < W) (hcs : 0 < cs) (hfuel : S + 1 ≤ fuel)
    (hT : ∀ a b, (server a b).contentRangeTotal = some S)
    (hB : ∀ a b, (server a b).body.length = min (b + 1) S - a) :
    ∃ chunks logs,
      stream server cs W fuel = some (chunks, logs)
      ∧ sumLens chunks = S
      ∧ logs.map (fun l => (l.start, l.stop)) = streamReqPlan S W := by
  obtain ⟨f, rfl⟩ : ∃ f, fuel = f + 1 := ⟨fuel - 1, by omega⟩
  have hfS : S ≤ f := by omega
  have hstop : W - 1 + 1 = W := by omega
  have hbody0 : (server 0 (W - 1)).body.length = min W S := by
    rw [hB, hstop]; omega
  have hgot0 : sumLens (readChunks cs (server 0 (W - 1)).body) = min W S := by
    rw [sumLens_readChunks cs hcs, hbody0]
  rcases Nat.le_total S W with hSW | hWS
  · -- the whole payload fits in the first window
    have hminWS : min W S = S := Nat.min_eq_right hSW
    have hC1 : ceilDiv S W = 1 := by
      have hge : 1 ≤ ceilDiv S W := by
        rw [ceilDiv, Nat.le_div_iff_mul_le hW]; omega
      have hlt : ceilDiv S W < 2 := by
        rw [ceilDiv]
        apply (Nat.div_lt_iff_lt_mul hW).mpr
        omega
      omega
    refine ⟨readChunks cs (server 0 (W - 1)).body, [⟨0, W - 1, W, S, S⟩], ?_, ?_, ?_⟩
    · simp only [stream, streamLoop, if_pos hW, Nat.zero_add, Nat.min_self, hT, if_true,
          hgot0, hminWS,
        Nat.zero_add]
      obtain ⟨f', rfl⟩ : ∃ f', f = f' + 1 := ⟨f - 1, by omega⟩
      rw [streamLoop_done]
      simp
    · rw [hgot0, hminWS]
    · rw [streamReqPlan, hC1]
      simp
  · -- at least one more window after the first
    rcases Nat.eq_or_lt_of_le hWS with hEq | hWltS
    · -- S = W : exactly one window, and the plan tail is empty
      have hminWS : min W S = S := by omega
      have hC1 : ceilDiv S W = 1 := by
        have hge : 1 ≤ ceilDiv S W := by
          rw [ceilDiv, Nat.le_div_iff_mul_le hW]; omega
        have hlt : ceilDiv S W < 2 := by
          rw [ceilDiv]
          apply (Nat.div_lt_iff_lt_mul hW).mpr
          omega
        omega
      refine ⟨readChunks cs (server 0 (W - 1)).body, [⟨0, W - 1, W, S, S⟩], ?_, ?_, ?_⟩
      · simp only [stream, streamLoop, if_pos hW, Nat.zero_add, Nat.min_self, hT, if_true,
          hgot0, hminWS,
          Nat.zero_add]
        obtain ⟨f', rfl⟩ : ∃ f', f = f' + 1 := ⟨f - 1, by omega⟩
        rw [streamLoop_done]
        simp
      · rw [hgot0, hminWS]
      · rw [streamReqPlan, hC1]
        simp
    · -- W < S
      have hminWS : min W S = W := Nat.min_eq_left (Nat.le_of_lt hWltS)
      have h1W : 1 * W = W := by ring
      obtain ⟨chunksR, logsR, hrec, hsumR, hmapR⟩ :=
        streamLoop_atS server cs W S hW hcs hT hB f 1 (Nat.le_refl 1)
          (by omega) (by omega)
      refine ⟨readChunks cs (server 0 (W - 1)).body ++ chunksR,
        ⟨0, W - 1, W, S, W⟩ :: logsR, ?_, ?_, ?_⟩
      · simp only [stream, streamLoop, if_pos hW, Nat.zero_add, Nat.min_self, hT, if_true,
          hgot0, hminWS,
          Nat.zero_add]
        rw [h1W] at hrec
        rw [hrec]
      · rw [sumLens_append, hgot0, hsumR, hminWS]
        omega
      · rw [List.map_cons, hmapR, streamReqPlan]
        congr 1
        apply List.map_congr_left
        intro i _
        show ((1 + i) * W, min ((1 + i + 1) * W) S - 1) =
          ((i + 1) * W, min ((i + 2) * W) S - 1)
        have e1 : 1 + i = i + 1 := by omega
        rw [e1]

/-- Sum of the per-iteration byte counts: the final value of `downloaded`. -/
def sumBytes (logs : List IterLog) : Nat := (logs.map IterLog.bytes).sum

theorem sumLens_readChunks_le (cs : Nat) (body : Bytes) :
    sumLens (readChunks cs body) ≤ body.length := by
  rcases Nat.eq_zero_or_pos cs with h0 | hpos
  · subst h0
    cases body with
    | nil => simp [readChunks, readChunksAux, sumLens]
    | cons b rest => simp [readChunks, readChunksAux, sumLens]
  · rw [sumLens_readChunks cs hpos]

/-- A server that reports total size `S` in every `Content-Range` header
and delivers exactly the requested window clamped to the payload. -/
def clampedServer (S : Nat) : Nat → Nat → Response :=
  fun a b => ⟨some S, List.replicate (min (b + 1) S - a) 0⟩

/-- C1 (amended): against a server that discloses total `S` in every
response and delivers exactly the requested window clamped to `S`,
`stream` terminates yielding chunks whose concatenated length is exactly
`S`, and issues exactly `ceil (S / W)` ranged requests whose windows are
`streamReqPlan S W`: every request after the first has window
`[downloaded, min (downloaded + W, S) - 1]` as the claim states, but the
first request always has window `[0, W - 1]` (computed from the
placeholder `file_size = W`), which agrees with the claimed
`[0, min (W, S) - 1]` only when `W ≤ S`. -/
theorem claim_C1_stream_length_count_windows (S W cs fuel : Nat)
    (server : Nat → Nat → Response)
    (hS : 0 < S) (hW : 0 < W) (hcs : 0 < cs) (hfuel : S + 1 ≤ fuel)
    (hT : ∀ a b, (server a b).contentRangeTotal = some S)
    (hB : ∀ a b, (server a b).body.length = min (b + 1) S - a) :
    ∃ chunks logs,
      stream server cs W fuel = some (chunks, logs)
      ∧ sumLens chunks = S
      ∧ logs.map (fun l => (l.start, l.stop)) = streamReqPlan S W
      ∧ (streamReqPlan S W).length = ceilDiv S W
      ∧ (∀ r ∈ (streamReqPlan S W).tail, r.2 = min (r.1 + W) S - 1)
      ∧ (W ≤ S → ∀ r ∈ streamReqPlan S W, r.2 = min (r.1 + W) S - 1) := by
  obtain ⟨chunks, logs, heq, hsum, hmap⟩ :=
    stream_plan S W cs fuel server hS hW hcs hfuel hT hB
  have htail : ∀ r ∈ (streamReqPlan S W).tail, r.2 = min (r.1 + W) S - 1 := by
    intro r hr
    simp only [streamReqPlan, List.tail_cons] at hr
    rcases List.mem_map.mp hr with ⟨j, _, rfl⟩
    show min ((j + 2) * W) S - 1 = min ((j + 1) * W + W) S - 1
    have e : (j + 2) * W = (j + 1) * W + W := by ring
    rw [e]
  refine ⟨chunks, logs, heq, hsum, hmap, ?_, htail, ?_⟩
  · have hC1 : 1 ≤ ceilDiv S W := by
      rw [ceilDiv, Nat.le_div_iff_mul_le hW]
      omega
    simp only [streamReqPlan, List.length_cons, List.length_map, List.length_range]
    omega
  · intro hWS r hr
    rcases List.mem_cons.mp hr with rfl | hr2
    · show W - 1 = min (0 + W) S - 1
      rw [Nat.zero_add, Nat.min_eq_left hWS]
    · exact htail r hr2

/-- Witness for C1 at the claim's concrete scenario: total size
`S = 20,000,000`, window `W = 9,437,184` — exactly 3 ranged requests
with windows `[0, 9437183]`, `[9437184, 18874367]`,
`[18874368, 19999999]`, and 20,000,000 bytes yielded. -/
theorem claim_C1_witness :
    (stream (clampedServer 20000000) 4096 9437184 20000001).map
        (fun p => (sumLens p.1, p.2.map (fun l => (l.start, l.stop)))) =
      some (20000000, [(0, 9437183), (9437184, 18874367), (18874368, 19999999)]) := by
  obtain ⟨chunks, logs, heq, hsum, hmap, -, -, -⟩ :=
    claim_C1_stream_length_count_windows 20000000 9437184 4096 20000001
      (clampedServer 20000000)
      (by decide) (by decide) (by decide) (by decide)
      (fun a b => rfl)
      (fun a b => by simp [clampedServer])
  rw [heq]
  simp only [Option.map_some']
  rw [hsum, hmap]
  decide

/-- C1 counterexample: with true size `S = 5` smaller than the window
`W = 10`, the single issued request has window `[0, 9]` — computed from
the placeholder `file_size = W` — whereas the claimed formula
`[downloaded, min (downloaded + W, S) - 1]` gives `[0, 4]`. -/
theorem claim_C1_counterexample :
    (stream (clampedServer 5) 4096 10 6).map
        (fun p => p.2.map (fun l => (l.start, l.stop))) = some [(0, 9)]
    ∧ (9 : Nat) ≠ min (0 + 10) 5 - 1 := by
  constructor
  · decide
  · decide

/-- A server that never discloses a total size and never returns a body:
the `Content-Range` parse fails on every response and every read is a
short (empty) read. -/
def emptyServer : Nat → Nat → Response := fun _ _ => ⟨none, []⟩

/-- Statement that `stream` with these arguments runs out of any amount of fuel:
the `while downloaded < file_size` loop never terminates. -/
def streamDiverges (server : Nat → Nat → Response) (cs rs : Nat) : Prop :=
  ∀ fuel, stream server cs rs fuel = none

/-- C4 counterexample: when the size parse fails on the first request and
the responses return no further bytes, the loop does NOT terminate: with
the placeholder still equal to the window size, `downloaded` stays `0`
and `stream` issues the same ranged request forever.  There is no
read-until-short-read termination in the code. -/
theorem claim_C4_counterexample : streamDiverges emptyServer 4096 9437184 := by
  intro fuel
  suffices h : ∀ f, streamLoop emptyServer 4096 9437184 f 0 9437184 = none from h fuel
  intro f
  induction f with
  | zero => rfl
  | succ n ih =>
      simp [streamLoop, emptyServer, readChunks, readChunksAux, sumLens, ih]

/-- A server that never discloses a total size but delivers every
requested byte range in full. -/
def shortHeaderServer : Nat → Nat → Response :=
  fun a b => ⟨none, List.replicate (b + 1 - a) 7⟩

/-- C4 (amended): when the `Content-Range` parse fails on the first
request, streaming does not abort — the parse failure is swallowed and
`file_size` keeps the placeholder `W` for the whole call; if the server
delivers the requested bytes, the loop then terminates after the single
window `[0, W-1]` having yielded exactly `W` bytes (the placeholder
treated as the authoritative total).  Termination is NOT guaranteed for
arbitrary subsequent behaviour: see the counterexample, where empty
bodies make the loop run forever. -/
theorem claim_C4_placeholder_fallback (W cs f : Nat) (server : Nat → Nat → Response)
    (hW : 0 < W) (hcs : 0 < cs)
    (hT : ∀ a b, (server a b).contentRangeTotal = none)
    (hB : ∀ a b, (server a b).body.length = b + 1 - a) :
    stream server cs W (f + 2) =
      some (readChunks cs (server 0 (W - 1)).body, [⟨0, W - 1, W, W, W⟩])
    ∧ sumLens (readChunks cs (server 0 (W - 1)).body) = W := by
  have hgot : sumLens (readChunks cs (server 0 (W - 1)).body) = W := by
    rw [sumLens_readChunks cs hcs, hB]
    omega
  refine ⟨?_, hgot⟩
  simp only [stream, streamLoop, if_pos hW, Nat.zero_add, Nat.min_self, hT, if_true, hgot,
    lt_self_iff_false, if_false, List.append_nil]

/-- Witness for C4 at `W = 2`, `cs = 1`. -/
theorem claim_C4_witness :
    stream shortHeaderServer 1 2 2 = some ([[7], [7]], [⟨0, 1, 2, 2, 2⟩]) := by
  have h := claim_C4_placeholder_fallback 2 1 0 shortHeaderServer (by decide) (by decide)
    (fun a b => rfl) (fun a b => by simp [shortHeaderServer])
  rw [h.1]
  decide

theorem streamLoop_leS (server : Nat → Nat → Response) (cs W S : Nat) (hW : 0 < W)
    (hT : ∀ a b, (server a b).contentRangeTotal = some S)
    (hB : ∀ a b, (server a b).body.length ≤ min (b + 1) S - a) :
    ∀ fuel d chunks logs, d ≤ S →
      streamLoop server cs W fuel d S = some (chunks, logs) →
      d + sumLens chunks = S
      ∧ (∀ l ∈ logs, l.fsBefore = S ∧ l.fsAfter = S)
      ∧ (∀ k, d + sumBytes (logs.take k) ≤ S)
      ∧ (∀ k, k < logs.length → d + sumBytes (logs.take k) < S) := by
  intro fuel
  induction fuel with
  | zero => intro d chunks logs _ hrun; exact absurd hrun (by simp [streamLoop])
  | succ f ih =>
      intro d chunks logs hdS hrun
      by_cases hd : d < S
      · simp only [streamLoop, if_pos hd] at hrun
        set M := min (d + W) S with hM
        have hM1 : 1 ≤ M := by
          have : 1 ≤ d + W := by omega
          exact Nat.le_min.mpr ⟨this, by omega⟩
        have hfs :
            (if S = W then
              match (server d (M - 1)).contentRangeTotal with
              | some total => total
              | none => S
            else S) = S := by
          rw [hT]; split <;> rfl
        rw [hfs] at hrun
        set g := sumLens (readChunks cs (server d (M - 1)).body) with hg
        have hgle : g ≤ M - d := by
          calc g ≤ (server d (M - 1)).body.length := sumLens_readChunks_le _ _
          _ ≤ min (M - 1 + 1) S - d := hB d (M - 1)
          _ = M - d := by
              have : M - 1 + 1 = M := by omega
              rw [this, Nat.min_eq_left (Nat.min_le_right _ _)]
        have hdg : d + g ≤ S := by
          have : M ≤ S := Nat.min_le_right _ _
          omega
        cases hrec : streamLoop server cs W f (d + g) S with
        | none => rw [hrec] at hrun; exact absurd hrun (by simp)
        | some p =>
            obtain ⟨cR, lR⟩ := p
            rw [hrec] at hrun
            simp only [Option.some.injEq, Prod.mk.injEq] at hrun
            obtain ⟨h1, h2⟩ := hrun
            subst h1
            subst h2
            obtain ⟨ihTot, ihFs, ihLe, ihLt⟩ := ih (d + g) cR lR hdg hrec
            refine ⟨?_, ?_, ?_, ?_⟩
            · rw [sumLens_append, ← hg]
              omega
            · intro l hl
              rcases List.mem_cons.mp hl with rfl | hl2
              · exact ⟨rfl, rfl⟩
              · exact ihFs l hl2
            · intro k
              cases k with
              | zero => simpa using hdS
              | succ k' =>
                  have := ihLe k'
                  simp only [List.take_succ_cons, sumBytes, List.map_cons, List.sum_cons]
                  simp only [sumBytes] at this
                  omega
            · intro k hk
              cases k with
              | zero => simpa using hd
              | succ k' =>
                  have hk' : k' < lR.length := by
                    simpa using hk
                  have := ihLt k' hk'
                  simp only [List.take_succ_cons, sumBytes, List.map_cons, List.sum_cons]
                  simp only [sumBytes] at this
                  omega
      · simp only [streamLoop, if_neg hd] at hrun
        simp only [Option.some.injEq, Prod.mk.injEq] at hrun
        obtain ⟨h1, h2⟩ := hrun
        subst h1
        subst h2
        have hdSe : d = S := by omega
        refine ⟨by simp [sumLens, hdSe], by simp, ?_, by simp⟩
        intro k
        simp [sumBytes, hdSe]

/-- C7 (amended): for every completed run of `stream` against responses
that always disclose total `S` and never deliver beyond the requested
window clamped to `S`: the concatenated output has length exactly `S`
(the loop stops exactly when `downloaded` reaches the total), at least
one request is issued, `file_size` starts as the placeholder `W` and is
`S` from the first response onwards, and `downloaded` never exceeds `S`
at any iteration boundary (strictly below `S` before every iteration
after the first).  Without the no-over-delivery bound the invariant
fails — see the counterexample, where the loop ends with
`downloaded > total_size`. -/
theorem claim_C7_stream_state_invariant (W cs S fuel : Nat)
    (server : Nat → Nat → Response) (hW : 0 < W)
    (hT : ∀ a b, (server a b).contentRangeTotal = some S)
    (hB : ∀ a b, (server a b).body.length ≤ min (b + 1) S - a)
    (chunks : List Bytes) (logs : List IterLog)
    (hrun : stream server cs W fuel = some (chunks, logs)) :
    sumLens chunks = S
    ∧ logs ≠ []
    ∧ (logs.head?.map IterLog.fsBefore = some W
        ∧ logs.head?.map IterLog.fsAfter = some S)
    ∧ (∀ l ∈ logs.tail, l.fsBefore = S ∧ l.fsAfter = S)
    ∧ (∀ k, sumBytes (logs.take k) ≤ S)
    ∧ (∀ k, 1 ≤ k → k < logs.length → sumBytes (logs.take k) < S) := by
  cases fuel with
  | zero => exact absurd hrun (by simp [stream, streamLoop])
  | succ f =>
      simp only [stream, streamLoop, if_pos hW, Nat.zero_add, Nat.min_self, hT, if_true]
        at hrun
      set g := sumLens (readChunks cs (server 0 (W - 1)).body) with hg
      have hgle : g ≤ S := by
        calc g ≤ (server 0 (W - 1)).body.length := sumLens_readChunks_le _ _
        _ ≤ min (W - 1 + 1) S - 0 := hB 0 (W - 1)
        _ ≤ S := by
            have : W - 1 + 1 = W := by omega
            rw [this]
            omega
      cases hrec : streamLoop server cs W f g S with
      | none => rw [hrec] at hrun; exact absurd hrun (by simp)
      | some p =>
          obtain ⟨cR, lR⟩ := p
          rw [hrec] at hrun
          simp only [Option.some.injEq, Prod.mk.injEq] at hrun
          obtain ⟨h1, h2⟩ := hrun
          subst h1
          subst h2
          obtain ⟨ihTot, ihFs, ihLe, ihLt⟩ :=
            streamLoop_leS server cs W S hW hT hB f g cR lR hgle hrec
          refine ⟨?_, by simp, ⟨rfl, rfl⟩, ?_, ?_, ?_⟩
          · rw [sumLens_append, ← hg]
            omega
          · intro l hl
            exact ihFs l hl
          · intro k
            cases k with
            | zero => simp [sumBytes]
            | succ k' =>
                have := ihLe k'
                simp only [List.take_succ_cons, sumBytes, List.map_cons, List.sum_cons]
                simp only [sumBytes] at this
                omega
          · intro k hk1 hk
            cases k with
            | zero => omega
            | succ k' =>
                have hk' : k' < lR.length := by
                  simpa using hk
                have := ihLt k' hk'
                simp only [List.take_succ_cons, sumBytes, List.map_cons, List.sum_cons]
                simp only [sumBytes] at this
                omega

/-- Witness for C7 at `S = 3`, `W = 2`, `cs = 1`. -/
theorem claim_C7_witness :
    sumLens [[0], [0], [0]] = 3
    ∧ ([(⟨0, 1, 2, 3, 2⟩ : IterLog), ⟨2, 2, 3, 3, 1⟩] : List IterLog) ≠ []
    ∧ (∀ k, sumBytes (([(⟨0, 1, 2, 3, 2⟩ : IterLog), ⟨2, 2, 3, 3, 1⟩]).take k) ≤ 3) := by
  have h := claim_C7_stream_state_invariant 2 1 3 4 (clampedServer 3) (by decide)
    (fun a b => rfl)
    (fun a b => by simp [clampedServer])
    [[0], [0], [0]] [⟨0, 1, 2, 3, 2⟩, ⟨2, 2, 3, 3, 1⟩]
    (by decide)
  exact ⟨h.1, h.2.1, h.2.2.2.2.1⟩

/-- A server that discloses total `5` but delivers `8` bytes: more than
the payload holds. -/
def overServer : Nat → Nat → Response := fun _ _ => ⟨some 5, List.replicate 8 0⟩

/-- C7 counterexample: when a response delivers more bytes than the
requested window, `downloaded` exceeds `total_size` (8 > 5) and the loop
terminates although `downloaded ≠ total_size` — both parts of the
claimed invariant fail. -/
theorem claim_C7_counterexample :
    stream overServer 8 10 3 = some ([List.replicate 8 0], [⟨0, 9, 10, 5, 8⟩])
    ∧ sumBytes [(⟨0, 9, 10, 5, 8⟩ : IterLog)] = 8
    ∧ ((⟨0, 9, 10, 5, 8⟩ : IterLog)).fsAfter = 5
    ∧ ¬ sumBytes [(⟨0, 9, 10, 5, 8⟩ : IterLog)] ≤ ((⟨0, 9, 10, 5, 8⟩ : IterLog)).fsAfter := by
  refine ⟨by decide, by decide, by decide, by decide⟩

/-- Bytes of an ASCII string (model of Python `bytes` literals). -/
def strBytes (s : String) : Bytes := s.data.map Char.toNat

/-- Model of `bytes.split(b'\r\n')`: split a byte string at every (non-overlapping,
leftmost-first) occurrence of the two-byte sequence CR LF. -/
def splitCRLF : Bytes → List Bytes
  | [] => [[]]
  | 13 :: 10 :: rest => [] :: splitCRLF rest
  | b :: rest =>
    match splitCRLF rest with
    | h :: t => (b :: h) :: t
    | [] => [[b]]

/-- The bytes of the literal `b'Segment-Count: '`. -/
def markerBytes : Bytes := strBytes "Segment-Count: "

/-- Is this byte an ASCII decimal digit? -/
def isDigitByte (b : Nat) : Bool := 48 ≤ b && b ≤ 57

/-- Decimal value of a digit run (most significant first). -/
def digitsVal (ds : Bytes) : Nat := ds.foldl (fun acc d => 10 * acc + (d - 48)) 0

/-- Does `re.search(b'Segment-Count: (\d+)', line)` match at the CURRENT
position?  If so, return `int(match.group(1))`: the maximal (greedy)
digit run following the literal marker; at least one digit is needed. -/
def matchMarkerAt (l : Bytes) : Option Nat :=
  if markerBytes.isPrefixOf l then
    let ds := (l.drop markerBytes.length).takeWhile isDigitByte
    if ds.isEmpty then none else some (digitsVal ds)
  else none

/-- Model of `re.search` over a whole line: leftmost position whose suffix matches
the pattern, scanning left to right. -/
def searchMarker : Bytes → Option Nat
  | [] => none
  | b :: rest =>
    match matchMarkerAt (b :: rest) with
    | some n => some n
    | none => searchMarker rest

/-- The body of the `seq_stream` scan loop: a matching line overwrites
the accumulator, a non-matching line leaves it. -/
def countScanOpt (acc : Option Nat) (line : Bytes) : Option Nat :=
  match searchMarker line with
  | some n => some n
  | none => acc

/-- The segment-count scan of `seq_stream` (request.py lines 127-132):
iterate over the CRLF-split lines of segment 0 and assign
`segment_count` on EVERY matching line — so a later match overwrites an
earlier one — and leave the variable unassigned (`none`, Python
`UnboundLocalError` on its subsequent use) if no line ever matches. -/
def parseSegmentCountOpt (body : Bytes) : Option Nat :=
  (splitCRLF body).foldl countScanOpt none

/-- The body of the `seq_filesize` scan loop: `regex_search` either
succeeds and overwrites `segment_count`, or raises `RegexMatchError`,
which is caught and skipped. -/
def countScanZ (acc : Nat) (line : Bytes) : Nat :=
  match searchMarker line with
  | some n => n
  | none => acc

/-- The segment-count scan of `seq_filesize` (request.py lines 213-222):
same overwrite-on-every-match loop, but `segment_count` starts at `0`. -/
def parseSegmentCountZ (body : Bytes) : Nat :=
  (splitCRLF body).foldl countScanZ 0

theorem foldl_countScanOpt_skip (L : List Bytes)
    (h : ∀ l ∈ L, searchMarker l = none) :
    ∀ a : Option Nat, L.foldl countScanOpt a = a := by
  induction L with
  | nil => exact fun a => rfl
  | cons l0 t ih =>
      intro a
      simp only [List.foldl_cons]
      have h0 : searchMarker l0 = none := h l0 (List.mem_cons_self _ _)
      have hstep : countScanOpt a l0 = a := by simp [countScanOpt, h0]
      rw [hstep]
      exact ih (fun l hl => h l (List.mem_cons_of_mem _ hl)) a

theorem foldl_countScanZ_skip (L : List Bytes)
    (h : ∀ l ∈ L, searchMarker l = none) :
    ∀ z : Nat, L.foldl countScanZ z = z := by
  induction L with
  | nil => exact fun z => rfl
  | cons l0 t ih =>
      intro z
      simp only [List.foldl_cons]
      have h0 : searchMarker l0 = none := h l0 (List.mem_cons_self _ _)
      have hstep : countScanZ z l0 = z := by simp [countScanZ, h0]
      rw [hstep]
      exact ih (fun l hl => h l (List.mem_cons_of_mem _ hl)) z

/-- C3 (amended): segment-count parsing, in both `seq_stream` and
`seq_filesize` form, returns the integer of the LAST line whose bytes
match the `Segment-Count: <decimal>` pattern (each match overwrites the
previous value); lines that do not match are skipped without error,
whether they come before or after the last matching line.  So for every
body whose CRLF-split lines are some prefix, then a line matching with
value `n`, then any lines with no match at all, the parsed count is
`n`. -/
theorem claim_C3_last_match_wins (body : Bytes) (ls : List Bytes) (l : Bytes)
    (rest : List Bytes) (n : Nat)
    (hsplit : splitCRLF body = ls ++ l :: rest)
    (hline : searchMarker l = some n)
    (hrest : ∀ r ∈ rest, searchMarker r = none) :
    parseSegmentCountOpt body = some n ∧ parseSegmentCountZ body = n := by
  constructor
  · rw [parseSegmentCountOpt, hsplit, List.foldl_append, List.foldl_cons]
    have hstep : countScanOpt (ls.foldl countScanOpt none) l = some n := by
      simp [countScanOpt, hline]
    rw [hstep]
    exact foldl_countScanOpt_skip rest hrest (some n)
  · rw [parseSegmentCountZ, hsplit, List.foldl_append, List.foldl_cons]
    have hstep : countScanZ (ls.foldl countScanZ 0) l = n := by
      simp [countScanZ, hline]
    rw [hstep]
    exact foldl_countScanZ_skip rest hrest n

/-- Witness for C3 on the spec's canonical segment-0 shape — a noise
line, the marker line, then a trailing non-matching (binary) line:
`b"noise\r\nSegment-Count: 7\r\nheaderbytes"` parses to `7`. -/
theorem claim_C3_witness :
    parseSegmentCountOpt (strBytes "noise\r\nSegment-Count: 7\r\nheaderbytes") = some 7
    ∧ parseSegmentCountZ (strBytes "noise\r\nSegment-Count: 7\r\nheaderbytes") = 7 :=
  claim_C3_last_match_wins (strBytes "noise\r\nSegment-Count: 7\r\nheaderbytes")
    [strBytes "noise"] (strBytes "Segment-Count: 7") [strBytes "headerbytes"] 7
    (by decide) (by decide) (by decide)

/-- C3 counterexample: for the body
`b"Segment-Count: 2\r\nSegment-Count: 5\r\ntail"`, both parsers return
`5`, the count of the LATER marker line — not `2`, the count of the
earlier line that the claim says is used. -/
theorem claim_C3_counterexample :
    parseSegmentCountOpt (strBytes "Segment-Count: 2\r\nSegment-Count: 5\r\ntail") = some 5
    ∧ parseSegmentCountZ (strBytes "Segment-Count: 2\r\nSegment-Count: 5\r\ntail") = 5
    ∧ (5 : Nat) ≠ 2 := by
  refine ⟨by decide, by decide, by decide⟩

/-- Find the first occurrence of the (nonempty) separator `sep` in `l`:
return the part before it and the part after it, or `none` when `sep`
does not occur. -/
def breakOnSub (sep : List Char) : List Char → Option (List Char × List Char)
  | [] => none
  | c :: rest =>
    if sep.isPrefixOf (c :: rest) then some ([], (c :: rest).drop sep.length)
    else
      match breakOnSub sep rest with
      | some (a, b) => some (c :: a, b)
      | none => none

/-- The pieces `urlsplit` produces, as used by the source: scheme,
netloc, path (with its leading slash) and query. -/
structure SplitUrl where
  scheme : List Char
  netloc : List Char
  path : List Char
  query : List Char
deriving DecidableEq, Repr

/-- Model of `urllib.parse.urlsplit` (a collaborator of this module, per
its documented behaviour) restricted to fragment-free URLs: the scheme
is everything before `://`, the netloc runs to the next `/` or `?`, the
path (leading slash included) to the next `?`, the query is the rest.
Without `://` the scheme and netloc are empty. -/
def urlsplitModel (url : List Char) : SplitUrl :=
  match breakOnSub "://".toList url with
  | none =>
      ⟨[], [], url.takeWhile (fun c => c != '?'),
        (url.dropWhile (fun c => c != '?')).drop 1⟩
  | some (scheme, rest) =>
      let netloc := rest.takeWhile (fun c => c != '/' && c != '?')
      let rest2 := rest.dropWhile (fun c => c != '/' && c != '?')
      ⟨scheme, netloc, rest2.takeWhile (fun c => c != '?'),
        (rest2.dropWhile (fun c => c != '?')).drop 1⟩

/-- The serialization `base_url = '%s://%s/%s?' % (scheme, netloc, path)` (request.py
lines 112 and 197): note the `/` inserted between netloc and path even
though the split path already carries its leading slash. -/
def baseUrlOf (su : SplitUrl) : List Char :=
  su.scheme ++ "://".toList ++ su.netloc ++ '/' :: su.path ++ ['?']

/-- Split on ampersands: `query.split('&')`, empty fields included. -/
def splitAmp : List Char → List (List Char)
  | [] => [[]]
  | c :: rest =>
    if c == '&' then [] :: splitAmp rest
    else
      match splitAmp rest with
      | h :: t => (c :: h) :: t
      | [] => [[c]]

/-- Model of `urllib.parse.parse_qsl(query)` with its default
`keep_blank_values=False`, restricted to queries free of percent-escapes
and `+`: split on `&`, split each field at its first `=`, and DROP both
fields without `=` and fields whose value is empty. -/
def parseQslModel (query : List Char) : List (List Char × List Char) :=
  (splitAmp query).filterMap
    (fun field =>
      match breakOnSub ['='] field with
      | none => none
      | some (name, value) => if value.isEmpty then none else some (name, value))

/-- Python `dict` assignment on an insertion-ordered association list:
an existing key keeps its position and gets the new value, a new key is
appended at the end. -/
def dictInsert (k v : List Char) :
    List (List Char × List Char) → List (List Char × List Char)
  | [] => [(k, v)]
  | (k0, v0) :: rest =>
    if k0 == k then (k0, v) :: rest else (k0, v0) :: dictInsert k v rest

/-- Model of `dict(pairs)`: left-to-right insertion. -/
def dictOfList (pairs : List (List Char × List Char)) :
    List (List Char × List Char) :=
  pairs.foldl (fun d kv => dictInsert kv.1 kv.2 d) []

/-- Mapping lookup. -/
def dlookup (k : List Char) : List (List Char × List Char) → Option (List Char)
  | [] => none
  | (k0, v0) :: rest => if k0 == k then some v0 else dlookup k rest

/-- Model of `urllib.parse.urlencode` on escape-free keys and values:
`k=v` pairs joined by `&` in mapping order. -/
def urlencodeModel : List (List Char × List Char) → List Char
  | [] => []
  | [(k, v)] => k ++ '=' :: v
  | (k, v) :: rest => k ++ '=' :: v ++ '&' :: urlencodeModel rest

/-- Python `str(n)`: the decimal digits of the `sq` value. -/
def natToChars (n : Nat) : List Char := Nat.toDigits 10 n

/-- The reserved sequence query parameter name `'sq'`. -/
def sqKey : List Char := "sq".toList

/-- The mapping `querys = dict(parse.parse_qsl(split_url.query))` (request.py lines
114 and 198). -/
def querysOfModel (url : List Char) : List (List Char × List Char) :=
  dictOfList (parseQslModel (urlsplitModel url).query)

/-- The rebuild `querys['sq'] = n; url = base_url + parse.urlencode(querys)`
(request.py lines 118-119, 138-139, 202-203, 231-232). -/
def rebuildWithSq (url : List Char) (n : Nat) : List Char :=
  baseUrlOf (urlsplitModel url)
    ++ urlencodeModel (dictInsert sqKey (natToChars n) (querysOfModel url))

theorem dlookup_dictInsert_ne (q v k : List Char) (hk : ¬ k = q)
    (d : List (List Char × List Char)) :
    dlookup k (dictInsert q v d) = dlookup k d := by
  induction d with
  | nil => simp [dictInsert, dlookup, beq_iff_eq, Ne.symm hk]
  | cons kv rest ih =>
      obtain ⟨k0, v0⟩ := kv
      by_cases h : k0 = q
      · subst h
        simp [dictInsert, dlookup, beq_iff_eq, Ne.symm hk]
      · simp [dictInsert, dlookup, beq_iff_eq, h, ih]

theorem dictInsert_dictInsert (k v w : List Char)
    (d : List (List Char × List Char)) :
    dictInsert k v (dictInsert k w d) = dictInsert k v d := by
  induction d with
  | nil => simp [dictInsert]
  | cons kv rest ih =>
      obtain ⟨k0, v0⟩ := kv
      by_cases h : k0 = k
      · subst h
        simp [dictInsert]
      · simp [dictInsert, beq_iff_eq, h, ih]

/-- C8 (amended): setting the `sq` parameter leaves every OTHER key of
the parsed query mapping `dict(parse_qsl(query))` unchanged, and the
rebuilt URL is exactly the base re-serialization followed by the encoded
mapping.  The original URL is NOT preserved verbatim, though: `parse_qsl`
drops blank-valued parameters, `dict` keeps only the last value of a
duplicated key, and the base re-serialization prepends an extra `/` to
the path — see the counterexample. -/
theorem claim_C8_sq_update_preserves_parsed (url : List Char) (n : Nat)
    (k : List Char) (hk : ¬ k = sqKey) :
    dlookup k (dictInsert sqKey (natToChars n) (querysOfModel url))
      = dlookup k (querysOfModel url)
    ∧ rebuildWithSq url n =
        baseUrlOf (urlsplitModel url)
          ++ urlencodeModel (dictInsert sqKey (natToChars n) (querysOfModel url)) :=
  ⟨dlookup_dictInsert_ne sqKey (natToChars n) k hk (querysOfModel url), rfl⟩

/-- Witness for C8 on `http://h/p?a=1&b=2`: the `a` parameter still maps
to `1` after `sq` is set. -/
theorem claim_C8_witness :
    dlookup "a".toList
        (dictInsert sqKey (natToChars 0)
          (querysOfModel "http://h/p?a=1&b=2".toList))
      = some "1".toList := by
  have h := claim_C8_sq_update_preserves_parsed "http://h/p?a=1&b=2".toList 0
    "a".toList (by decide)
  rw [h.1]
  decide

/-- C8 counterexample: for `http://h/p?a=1&a=2&b=&c=3` the rebuilt URL is
`http://h//p?a=2&c=3&sq=0`: the duplicate `a=1` and the blank-valued `b`
are gone, and the path `/p` has become `//p`. -/
theorem claim_C8_counterexample :
    rebuildWithSq "http://h/p?a=1&a=2&b=&c=3".toList 0
        = "http://h//p?a=2&c=3&sq=0".toList
    ∧ (urlsplitModel (rebuildWithSq "http://h/p?a=1&a=2&b=&c=3".toList 0)).path
        ≠ (urlsplitModel "http://h/p?a=1&a=2&b=&c=3".toList).path
    ∧ ("a".toList, "1".toList)
        ∈ parseQslModel (urlsplitModel "http://h/p?a=1&a=2&b=&c=3".toList).query
    ∧ ¬ ("a".toList, "1".toList)
        ∈ parseQslModel
            (urlsplitModel (rebuildWithSq "http://h/p?a=1&a=2&b=&c=3".toList 0)).query
    ∧ dlookup "b".toList (querysOfModel "http://h/p?a=1&a=2&b=&c=3".toList) = none := by
  refine ⟨by decide, by decide, by decide, by decide, by decide⟩

/-- The failure `_execute_request` raises for a rejected URL:
`ValueError('Invalid URL')`. -/
inductive ReqError
  | invalidURL
deriving DecidableEq, Repr

/-- The URL gate of `_execute_request` (request.py lines 54-57): the
request is built only when `url.lower().startswith("http")`; otherwise
`ValueError('Invalid URL')` is raised before any I/O. -/
def executeRequestCheck (url : List Char) : Except ReqError (List Char) :=
  if ("http".toList).isPrefixOf (url.map Char.toLower) then Except.ok url
  else Except.error ReqError.invalidURL

/-- C9 (amended): `_execute_request` raises `ValueError` exactly when the
lowercased URL does not start with the four letters `http`; hence every
`http://` and every `https://` URL is accepted before any I/O and every
scheme not beginning with those letters (e.g. `ftp`) is rejected — but
the check is only a prefix test, so schemes that merely BEGIN with
`http` (e.g. `httpx`) are wrongly accepted; see the counterexample. -/
theorem claim_C9_scheme_gate :
    (∀ url : List Char,
      executeRequestCheck url = Except.error ReqError.invalidURL ↔
        ("http".toList).isPrefixOf (url.map Char.toLower) = false)
    ∧ (∀ rest : List Char,
        executeRequestCheck ("http://".toList ++ rest)
          = Except.ok ("http://".toList ++ rest))
    ∧ (∀ rest : List Char,
        executeRequestCheck ("https://".toList ++ rest)
          = Except.ok ("https://".toList ++ rest))
    ∧ (∀ rest : List Char,
        executeRequestCheck ("ftp://".toList ++ rest)
          = Except.error ReqError.invalidURL) := by
  refine ⟨?_, ?_, ?_, ?_⟩
  · intro url
    rw [executeRequestCheck]
    cases h : ("http".toList).isPrefixOf (url.map Char.toLower) with
    | true => simp [h]
    | false => simp [h]
  · intro rest
    have hc : ("http".toList).isPrefixOf
        ((("http://".toList ++ rest)).map Char.toLower) = true := by
      rw [List.map_append]
      rfl
    rw [executeRequestCheck, if_pos hc]
  · intro rest
    have hc : ("http".toList).isPrefixOf
        ((("https://".toList ++ rest)).map Char.toLower) = true := by
      rw [List.map_append]
      rfl
    rw [executeRequestCheck, if_pos hc]
  · intro rest
    have hc : ("http".toList).isPrefixOf
        ((("ftp://".toList ++ rest)).map Char.toLower) = false := by
      rw [List.map_append]
      rfl
    rw [executeRequestCheck, if_neg (by simp [hc])]

/-- C9 counterexample: `httpx://evil` — whose scheme is `httpx`, neither
`http` nor `https` — passes the gate and no failure is raised. -/
theorem claim_C9_counterexample :
    executeRequestCheck "httpx://evil".toList = Except.ok "httpx://evil".toList
    ∧ (urlsplitModel "httpx://evil".toList).scheme = "httpx".toList
    ∧ "httpx".toList ≠ "http".toList
    ∧ "httpx".toList ≠ "https".toList := by
  refine ⟨by rfl, by decide, by decide, by decide⟩

theorem flatten_flatten (l : List (List Bytes)) :
    l.flatten.flatten = (l.map List.flatten).flatten := by
  induction l with
  | nil => rfl
  | cons a t ih =>
      simp only [List.flatten_cons, List.map_cons, List.flatten_append, ih]

theorem foldl_countScanOpt_isSome (L : List Bytes) :
    ∀ a : Nat, ∃ m, L.foldl countScanOpt (some a) = some m := by
  induction L with
  | nil => exact fun a => ⟨a, rfl⟩
  | cons l t ih =>
      intro a
      simp only [List.foldl_cons]
      cases h : searchMarker l with
      | none => simpa [countScanOpt, h] using ih a
      | some n => simpa [countScanOpt, h] using ih n

theorem foldl_countScanOpt_none (L : List Bytes)
    (h : L.foldl countScanOpt none = none) :
    ∀ l ∈ L, searchMarker l = none := by
  induction L with
  | nil => intro l hl; cases hl
  | cons l0 t ih =>
      intro l hl
      simp only [List.foldl_cons] at h
      cases hsm : searchMarker l0 with
      | some n =>
          exfalso
          have hstep : countScanOpt none l0 = some n := by
            simp [countScanOpt, hsm]
          rw [hstep] at h
          obtain ⟨m, hm⟩ := foldl_countScanOpt_isSome t n
          rw [hm] at h
          exact Option.noConfusion h
      | none =>
          have hstep : countScanOpt none l0 = none := by
            simp [countScanOpt, hsm]
          rw [hstep] at h
          rcases List.mem_cons.mp hl with rfl | hl2
          · exact hsm
          · exact ih h l hl2

/-- When `seq_stream`'s scan never assigns the count, `seq_filesize`'s
scan is still `0`. -/
theorem parseZ_zero_of_none (body : Bytes)
    (h : parseSegmentCountOpt body = none) :
    parseSegmentCountZ body = 0 :=
  foldl_countScanZ_skip _ (foldl_countScanOpt_none _ h) 0

/-- How the embedded `seq_stream` can abort. -/
inductive SeqError
  /-- The delegated `stream` loop had not finished within the fuel. -/
  | fuelOut
  /-- No line of segment 0 matched the marker: the Python variable
  `segment_count` is never assigned, so the `while seq_num <=
  segment_count` line raises an untyped `UnboundLocalError`. -/
  | unboundLocal
deriving DecidableEq, Repr

/-- The URL `seq_stream`/`seq_filesize` build for sequence number `n`. -/
def seqUrl (url : List Char) (n : Nat) : List Char := rebuildWithSq url n

/-- The `while seq_num <= segment_count` loop of `seq_stream`
(request.py lines 135-142): set `querys['sq'] = seq_num`, re-serialize
the URL, delegate to `stream(url)` — with NO chunk-size or range-size
argument, so the defaults apply — and yield its chunks; then advance.
Returns the yielded chunks and the fetched sequence numbers. -/
def seqLoopFrom (net : List Char → Nat → Nat → Response) (base_url : List Char)
    (querys : List (List Char × List Char)) (fuel : Nat) :
    Nat → Nat → Except SeqError (List Bytes × List Nat)
  | seq_num, segment_count =>
    if h : seq_num ≤ segment_count then
      match stream
          (net (base_url ++ urlencodeModel
            (dictInsert sqKey (natToChars seq_num) querys)))
          default_chunk_size default_range_size fuel with
      | none => Except.error SeqError.fuelOut
      | some (chunks, _) =>
        match seqLoopFrom net base_url querys fuel (seq_num + 1) segment_count with
        | Except.error e => Except.error e
        | Except.ok (chunksRest, sqs) =>
            Except.ok (chunks ++ chunksRest, seq_num :: sqs)
    else Except.ok ([], [])
termination_by seq_num segment_count => segment_count + 1 - seq_num

/-- Entry `seq_stream(url, chunk_size, range_size)` (request.py lines
102-143), driven by the network collaborator `net` (URL and `Range`
bounds to response).  Fetch segment 0 via `stream(url)` (accumulating
its bytes), scan them for the segment count, then fetch segments
1..segment_count in order.  NOTE: the delegated `stream(url)` calls pass
no chunk-size/range-size arguments, so `chunk_size` and `range_size`
are never used. -/
def seq_stream (net : List Char → Nat → Nat → Response) (url : List Char)
    (chunk_size range_size fuel : Nat) :
    Except SeqError (List Bytes × List Nat) :=
  let split_url := urlsplitModel url
  let base_url := baseUrlOf split_url
  let querys := dictOfList (parseQslModel split_url.query)
  let querys0 := dictInsert sqKey (natToChars 0) querys
  let url0 := base_url ++ urlencodeModel querys0
  match stream (net url0) default_chunk_size default_range_size fuel with
  | none => Except.error SeqError.fuelOut
  | some (chunks0, _) =>
    let segment_data := chunks0.flatten
    match parseSegmentCountOpt segment_data with
    | none => Except.error SeqError.unboundLocal
    | some segment_count =>
      match seqLoopFrom net base_url querys0 fuel 1 segment_count with
      | Except.error e => Except.error e
      | Except.ok (chunksRest, sqs) =>
          Except.ok (chunks0 ++ chunksRest, 0 :: sqs)

/-- C10 (confirmed): `seq_stream` never forwards its `chunk_size` and
`range_size` parameters — every delegated `stream` call uses the
defaults `default_chunk_size = 4096` and `default_range_size = 9437184`
— so its result does not depend on those arguments at all. -/
theorem claim_C10_seq_stream_ignores_sizes
    (net : List Char → Nat → Nat → Response) (url : List Char)
    (cs rs cs2 rs2 fuel : Nat) :
    seq_stream net url cs rs fuel = seq_stream net url cs2 rs2 fuel
    ∧ seq_stream net url cs rs fuel
        = seq_stream net url default_chunk_size default_range_size fuel
    ∧ default_chunk_size = 4096 ∧ default_range_size = 9437184 :=
  ⟨rfl, rfl, rfl, rfl⟩

theorem seqLoopFrom_ok (net : List Char → Nat → Nat → Response)
    (base_url : List Char) (querys : List (List Char × List Char))
    (fuel N : Nat) (segs : Nat → List Bytes)
    (hseg : ∀ i, 1 ≤ i → i ≤ N →
      (stream
          (net (base_url ++ urlencodeModel
            (dictInsert sqKey (natToChars i) querys)))
          default_chunk_size default_range_size fuel).map Prod.fst
        = some (segs i)) :
    ∀ k s, 1 ≤ s → N + 1 - s = k →
      seqLoopFrom net base_url querys fuel s N =
        Except.ok (((List.range k).map (fun j => segs (s + j))).flatten,
          (List.range k).map (fun j => s + j)) := by
  intro k
  induction k with
  | zero =>
      intro s hs hk
      have hgt : ¬ s ≤ N := by omega
      rw [seqLoopFrom, dif_neg hgt]
      simp
  | succ k ih =>
      intro s hs hk
      have hle : s ≤ N := by omega
      have hstream := hseg s hs hle
      cases hopt : stream
          (net (base_url ++ urlencodeModel
            (dictInsert sqKey (natToChars s) querys)))
          default_chunk_size default_range_size fuel with
      | none => rw [hopt] at hstream; exact absurd hstream (by simp)
      | some p =>
          obtain ⟨c1, l1⟩ := p
          rw [hopt] at hstream
          simp only [Option.map_some', Option.some.injEq] at hstream
          rw [seqLoopFrom, dif_pos hle]
          simp only [hopt, ih (s + 1) (by omega) (by omega), hstream]
          rw [List.range_succ_eq_map]
          simp only [List.map_cons, List.flatten_cons, List.map_map, Nat.add_zero,
            Function.comp, Nat.succ_eq_add_one]
          have hm1 : (List.range k).map (fun j => segs (s + 1 + j))
              = (List.range k).map (fun j => segs (s + (j + 1))) :=
            List.map_congr_left (fun j _ => by
              rw [show s + 1 + j = s + (j + 1) from by omega])
          have hm2 : (List.range k).map (fun j => s + 1 + j)
              = (List.range k).map (fun j => s + (j + 1)) :=
            List.map_congr_left (fun j _ => by omega)
          have hm3 : (List.range k).map ((fun j => segs (s + j)) ∘ Nat.succ)
              = (List.range k).map (fun j => segs (s + (j + 1))) :=
            List.map_congr_left (fun j _ => rfl)
          have hm4 : (List.range k).map ((fun j => s + j) ∘ Nat.succ)
              = (List.range k).map (fun j => s + (j + 1)) :=
            List.map_congr_left (fun j _ => rfl)
          rw [hm1, hm2, hm3, hm4]

/-- C2 (confirmed): whenever segment 0's accumulated bytes disclose
segment count `N` (for ANY `N ≥ 0`) and each delegated `stream` run
completes, `seq_stream` fetches exactly the sequence numbers
`0, 1, ..., N` — that is `N + 1` segment fetches, issued even if earlier
segments are empty — in strictly increasing order, and the chunks it
yields are the concatenation of the per-segment chunk lists, so the
bytes it yields are the concatenation of the byte streams of segments
`0..N`. -/
theorem claim_C2_seq_stream_segments (net : List Char → Nat → Nat → Response)
    (url : List Char) (cs rs fuel N : Nat) (segs : Nat → List Bytes)
    (logs0 : List IterLog)
    (h0 : stream (net (seqUrl url 0)) default_chunk_size default_range_size fuel
      = some (segs 0, logs0))
    (hN : parseSegmentCountOpt (segs 0).flatten = some N)
    (hseg : ∀ i, 1 ≤ i → i ≤ N →
      (stream (net (seqUrl url i)) default_chunk_size default_range_size fuel).map
          Prod.fst = some (segs i)) :
    seq_stream net url cs rs fuel =
      Except.ok (((List.range (N + 1)).map segs).flatten, List.range (N + 1))
    ∧ List.Sorted (· < ·) (List.range (N + 1))
    ∧ (((List.range (N + 1)).map segs).flatten).flatten
        = ((List.range (N + 1)).map (fun i => (segs i).flatten)).flatten := by
  have h0' : stream
      (net (baseUrlOf (urlsplitModel url) ++ urlencodeModel
        (dictInsert sqKey (natToChars 0)
          (dictOfList (parseQslModel (urlsplitModel url).query)))))
      default_chunk_size default_range_size fuel = some (segs 0, logs0) := h0
  have hseg' : ∀ i, 1 ≤ i → i ≤ N →
      (stream
          (net (baseUrlOf (urlsplitModel url) ++ urlencodeModel
            (dictInsert sqKey (natToChars i)
              (dictInsert sqKey (natToChars 0)
                (dictOfList (parseQslModel (urlsplitModel url).query))))))
          default_chunk_size default_range_size fuel).map Prod.fst
        = some (segs i) := by
    intro i h1 h2
    rw [dictInsert_dictInsert]
    exact hseg i h1 h2
  have hloop := seqLoopFrom_ok net (baseUrlOf (urlsplitModel url))
      (dictInsert sqKey (natToChars 0)
        (dictOfList (parseQslModel (urlsplitModel url).query)))
      fuel N segs hseg' N 1 (Nat.le_refl 1) (by omega)
  refine ⟨?_, List.sorted_lt_range (N + 1), ?_⟩
  · simp only [seq_stream, h0', hN, hloop]
    rw [List.range_succ_eq_map]
    simp only [List.map_cons, List.flatten_cons, List.map_map, Nat.add_zero]
    have hm1 : (List.range N).map (fun j => segs (1 + j))
        = (List.range N).map (segs ∘ Nat.succ) :=
      List.map_congr_left (fun j _ => by
        show segs (1 + j) = segs (j + 1)
        rw [Nat.add_comm])
    have hm2 : (List.range N).map (fun j => 1 + j)
        = (List.range N).map Nat.succ :=
      List.map_congr_left (fun j _ => by
        show 1 + j = j + 1
        omega)
    rw [hm1, hm2]
  · rw [flatten_flatten, List.map_map]
    rfl

/-- A concrete URL for the sequential witnesses. -/
def urlEx : List Char := "http://h/v?id=1".toList

/-- Segment 0 of a resource whose header discloses zero further
segments. -/
def segBody : Bytes := strBytes "Segment-Count: 0"

/-- A server that serves `segBody` at every URL, with clamped ranged
delivery and a truthful size disclosure. -/
def seqNet : List Char → Nat → Nat → Response :=
  fun _ a b => ⟨some 16, (segBody.drop a).take (b + 1 - a)⟩

/-- Witness for C2 at segment count `N = 0`: only segment 0 is fetched
and its chunks are forwarded unchanged. -/
theorem claim_C2_witness :
    seq_stream seqNet urlEx 1 1 2 = Except.ok ([segBody], [0]) := by
  have h := claim_C2_seq_stream_segments seqNet urlEx 1 1 2 0 (fun _ => [segBody])
    [⟨0, 9437183, 9437184, 16, 16⟩] (by decide) (by decide)
    (fun i h1 h2 => absurd (Nat.le_trans h1 h2) (by decide))
  rw [h.1]
  rfl

/-- The failure of the embedded `seq_filesize`: the typed
`RegexMatchError('seq_filesize', ...)` raised when `segment_count` is
still `0` after the line scan. -/
inductive FsError
  | regexMatchError
deriving DecidableEq, Repr

/-- One network call made by `seq_filesize`. -/
inductive NetCall
  | get (url : List Char)
  | head (url : List Char)
deriving DecidableEq, Repr

/-- The `while seq_num <= segment_count` HEAD loop of `seq_filesize`
(request.py lines 228-235): one HEAD per segment URL, adding its parsed
content-length to the running total.  Returns the sum and the calls. -/
def fsLoopFrom (headCL : List Char → Nat) (base_url : List Char)
    (querys : List (List Char × List Char)) :
    Nat → Nat → Nat × List NetCall
  | seq_num, segment_count =>
    if h : seq_num ≤ segment_count then
      (headCL (base_url ++ urlencodeModel
          (dictInsert sqKey (natToChars seq_num) querys))
          + (fsLoopFrom headCL base_url querys (seq_num + 1) segment_count).1,
        NetCall.head (base_url ++ urlencodeModel
          (dictInsert sqKey (natToChars seq_num) querys))
          :: (fsLoopFrom headCL base_url querys (seq_num + 1) segment_count).2)
    else (0, [])
termination_by seq_num segment_count => segment_count + 1 - seq_num

/-- Entry `seq_filesize(url)` (request.py lines 188-236), driven by the
collaborators `net0` (full body of an un-ranged GET) and `headCL`
(parsed content-length of a HEAD): one GET for sequence 0 whose body
length starts the total, the overwrite line scan for the count —
raising the typed `RegexMatchError` when it is still `0` — then one
HEAD per sequence 1..segment_count.  Returns the total and the network
call trace. -/
def seq_filesize (net0 : List Char → Bytes) (headCL : List Char → Nat)
    (url : List Char) : Except FsError (Nat × List NetCall) :=
  let split_url := urlsplitModel url
  let base_url := baseUrlOf split_url
  let querys := dictOfList (parseQslModel split_url.query)
  let querys0 := dictInsert sqKey (natToChars 0) querys
  let url0 := base_url ++ urlencodeModel querys0
  let response_value := net0 url0
  let segment_count := parseSegmentCountZ response_value
  if segment_count = 0 then Except.error FsError.regexMatchError
  else
    Except.ok
      (response_value.length + (fsLoopFrom headCL base_url querys0 1 segment_count).1,
        NetCall.get url0 :: (fsLoopFrom headCL base_url querys0 1 segment_count).2)

theorem fsLoopFrom_ok (headCL : List Char → Nat) (base_url : List Char)
    (querys : List (List Char × List Char)) (N : Nat) :
    ∀ k s, 1 ≤ s → N + 1 - s = k →
      fsLoopFrom headCL base_url querys s N =
        (((List.range k).map (fun j =>
            headCL (base_url ++ urlencodeModel
              (dictInsert sqKey (natToChars (s + j)) querys)))).sum,
          (List.range k).map (fun j =>
            NetCall.head (base_url ++ urlencodeModel
              (dictInsert sqKey (natToChars (s + j)) querys)))) := by
  intro k
  induction k with
  | zero =>
      intro s hs hk
      have hgt : ¬ s ≤ N := by omega
      rw [fsLoopFrom, dif_neg hgt]
      simp
  | succ k ih =>
      intro s hs hk
      have hle : s ≤ N := by omega
      rw [fsLoopFrom, dif_pos hle, ih (s + 1) (by omega) (by omega)]
      rw [List.range_succ_eq_map]
      simp only [List.map_cons, List.map_map, List.sum_cons, Nat.add_zero]
      have hm1 : (List.range k).map (fun j =>
            headCL (base_url ++ urlencodeModel
              (dictInsert sqKey (natToChars (s + 1 + j)) querys)))
          = (List.range k).map ((fun j =>
              headCL (base_url ++ urlencodeModel
                (dictInsert sqKey (natToChars (s + j)) querys))) ∘ Nat.succ) :=
        List.map_congr_left (fun j _ => by
          show headCL (base_url ++ urlencodeModel
              (dictInsert sqKey (natToChars (s + 1 + j)) querys))
            = headCL (base_url ++ urlencodeModel
              (dictInsert sqKey (natToChars (s + (j + 1))) querys))
          rw [show s + 1 + j = s + (j + 1) from by omega])
      have hm2 : (List.range k).map (fun j =>
            NetCall.head (base_url ++ urlencodeModel
              (dictInsert sqKey (natToChars (s + 1 + j)) querys)))
          = (List.range k).map ((fun j =>
              NetCall.head (base_url ++ urlencodeModel
                (dictInsert sqKey (natToChars (s + j)) querys))) ∘ Nat.succ) :=
        List.map_congr_left (fun j _ => by
          show NetCall.head (base_url ++ urlencodeModel
              (dictInsert sqKey (natToChars (s + 1 + j)) querys))
            = NetCall.head (base_url ++ urlencodeModel
              (dictInsert sqKey (natToChars (s + (j + 1))) querys))
          rw [show s + 1 + j = s + (j + 1) from by omega])
      rw [hm1, hm2]

/-- C6 (amended): for a resource whose segment 0 discloses a POSITIVE
segment count `N`, `seq_filesize` returns the sum of segment 0's full
body length and the content-lengths of segments `1..N`, with a network
trace of exactly `N + 1` calls: one un-ranged GET plus one HEAD per
segment, no batching.  For a disclosed count of `0` the claim fails: the
code cannot distinguish "no marker" from "marker with value 0" and
raises instead — see the counterexample. -/
theorem claim_C6_seq_filesize_sum (net0 : List Char → Bytes)
    (headCL : List Char → Nat) (url : List Char) (N : Nat)
    (hN : parseSegmentCountZ (net0 (seqUrl url 0)) = N) (hpos : 1 ≤ N) :
    seq_filesize net0 headCL url =
      Except.ok ((net0 (seqUrl url 0)).length
          + ((List.range N).map (fun j => headCL (seqUrl url (1 + j)))).sum,
        NetCall.get (seqUrl url 0)
          :: (List.range N).map (fun j => NetCall.head (seqUrl url (1 + j))))
    ∧ (NetCall.get (seqUrl url 0)
          :: (List.range N).map (fun j => NetCall.head (seqUrl url (1 + j)))).length
        = N + 1 := by
  have hN' : parseSegmentCountZ (net0 (baseUrlOf (urlsplitModel url)
      ++ urlencodeModel (dictInsert sqKey (natToChars 0)
        (dictOfList (parseQslModel (urlsplitModel url).query))))) = N := hN
  have hcalls := fsLoopFrom_ok headCL (baseUrlOf (urlsplitModel url))
      (dictInsert sqKey (natToChars 0)
        (dictOfList (parseQslModel (urlsplitModel url).query)))
      N N 1 (Nat.le_refl 1) (by omega)
  simp only [dictInsert_dictInsert] at hcalls
  constructor
  · simp only [seq_filesize, hN', if_neg (show ¬ N = 0 from by omega), hcalls]
    try rfl
  · simp [List.length_map, List.length_range]

/-- Witness for C6 at `N = 2` with 10-byte segments: total
`16 + 10 + 10 = 36` over three network calls. -/
theorem claim_C6_witness :
    seq_filesize (fun _ => strBytes "Segment-Count: 2") (fun _ => 10) urlEx
      = Except.ok (36,
        [NetCall.get (seqUrl urlEx 0), NetCall.head (seqUrl urlEx 1),
          NetCall.head (seqUrl urlEx 2)]) := by
  have h := claim_C6_seq_filesize_sum (fun _ => strBytes "Segment-Count: 2")
    (fun _ => 10) urlEx 2 (by decide) (by omega)
  rw [h.1]
  rfl

/-- C6 counterexample: a segment 0 that explicitly discloses segment
count `0`.  The claim would have `seq_filesize` return the header body
length after a single round-trip, but the code cannot distinguish
"marker with value 0" from "no marker" and raises the typed failure
instead. -/
theorem claim_C6_counterexample :
    parseSegmentCountOpt (strBytes "Segment-Count: 0") = some 0
    ∧ seq_filesize (fun _ => strBytes "Segment-Count: 0") (fun _ => 10) urlEx
        = Except.error FsError.regexMatchError := by
  refine ⟨by decide, by rfl⟩

/-- C5 (amended/corrected): when no line of segment 0 matches the
marker, `seq_filesize` fails with the TYPED `RegexMatchError` — but
`seq_stream` does NOT fail with a typed error: its `segment_count`
variable is never assigned, and its use raises an untyped
`UnboundLocalError`. -/
theorem claim_C5_missing_marker (net : List Char → Nat → Nat → Response)
    (net0 : List Char → Bytes) (headCL : List Char → Nat) (url : List Char)
    (cs rs fuel : Nat) (chunks0 : List Bytes) (logs0 : List IterLog)
    (h0 : stream (net (seqUrl url 0)) default_chunk_size default_range_size fuel
      = some (chunks0, logs0))
    (hnone : parseSegmentCountOpt chunks0.flatten = none)
    (hnone0 : parseSegmentCountOpt (net0 (seqUrl url 0)) = none) :
    seq_stream net url cs rs fuel = Except.error SeqError.unboundLocal
    ∧ seq_filesize net0 headCL url = Except.error FsError.regexMatchError := by
  constructor
  · have h0' : stream (net (baseUrlOf (urlsplitModel url) ++ urlencodeModel
        (dictInsert sqKey (natToChars 0)
          (dictOfList (parseQslModel (urlsplitModel url).query)))))
        default_chunk_size default_range_size fuel = some (chunks0, logs0) := h0
    simp only [seq_stream, h0', hnone]
  · have hz : parseSegmentCountZ (net0 (baseUrlOf (urlsplitModel url)
        ++ urlencodeModel (dictInsert sqKey (natToChars 0)
          (dictOfList (parseQslModel (urlsplitModel url).query))))) = 0 :=
      parseZ_zero_of_none _ hnone0
    simp only [seq_filesize, hz]
    rfl

/-- Witness for C5 on the marker-free body `xyz`. -/
theorem claim_C5_witness :
    seq_stream (fun _ a b => ⟨some 3, ((strBytes "xyz").drop a).take (b + 1 - a)⟩)
        urlEx 1 1 2 = Except.error SeqError.unboundLocal
    ∧ seq_filesize (fun _ => strBytes "xyz") (fun _ => 0) urlEx
        = Except.error FsError.regexMatchError :=
  claim_C5_missing_marker _ _ _ urlEx 1 1 2 [strBytes "xyz"]
    [⟨0, 9437183, 9437184, 3, 3⟩] (by decide) (by decide) (by decide)

/-- C5 counterexample: on the marker-free body `hello`, `seq_stream`
fails with the untyped unbound-variable crash, not with the typed
failure the claim promises for both functions; only `seq_filesize`
raises typed. -/
theorem claim_C5_counterexample :
    seq_stream (fun _ a b => ⟨some 5, ((strBytes "hello").drop a).take (b + 1 - a)⟩)
        urlEx 4096 9437184 2 = Except.error SeqError.unboundLocal
    ∧ seq_filesize (fun _ => strBytes "hello") (fun _ => 0) urlEx
        = Except.error FsError.regexMatchError := by
  refine ⟨by rfl, by rfl⟩

end PytubeRequest
